import Mathlib

/-
Verification of the QMLauncher launch-preparation and remote-state
reconciliation engine (internal/cli/cmd/instance.go) against its
natural-language specification.

The instance directory is modelled as a flat association list from
forward-slash relative paths to file contents (byte strings).  Network
and hashing effects are supplied by oracle functions returning Option
values (none = the corresponding Go call returned an error).
-/

namespace QMLauncher

/-- File entry of a data manifest (Go struct FileInfo in instance.go). -/
structure FileInfo where
  path : String
  md5 : String
  size : Int
  modified : Int
  deriving DecidableEq, Repr

/-- Remote data manifest (Go struct DataManifest in instance.go). -/
structure DataManifest where
  serverID : Nat
  serverUUID : String
  files : List FileInfo
  generated : Int
  deriving DecidableEq, Repr

/-- Instance directory contents: relative path to file content. -/
abbrev FS := List (String × String)

/-- Association-list lookup keyed on the first component (models a Go map read). -/
def alistGet {α : Type} : List (String × α) → String → Option α
  | [], _ => none
  | (q, v) :: m, p => if q = p then some v else alistGet m p

/-- Overwrite or create the file at path p (models os.Create + io.Copy in downloadFile). -/
def fsSet (fs : FS) (p c : String) : FS :=
  (p, c) :: fs.filter (fun e => decide (e.1 ≠ p))

/-- Boolean membership in a list of strings (models a Go map key-existence test). -/
def memStr : List String → String → Bool
  | [], _ => false
  | q :: qs, p => decide (q = p) || memStr qs p

/-- Returns true when the second character list begins with the first. -/
def charsStarts : List Char → List Char → Bool
  | [], _ => true
  | _ :: _, [] => false
  | a :: as, b :: bs => decide (a = b) && charsStarts as bs

/-- Returns true when string s begins with string pre (forward-slash path test). -/
def strStarts (pre s : String) : Bool :=
  charsStarts pre.data s.data

/-- Split a character list into forward-slash separated segments. -/
def splitSegsAux : List Char → List Char → List String
  | [], cur => [String.mk cur.reverse]
  | c :: cs, cur =>
    if c = '/' then String.mk cur.reverse :: splitSegsAux cs []
    else splitSegsAux cs (c :: cur)

/-- One step of lexical path cleaning over a reversed segment stack:
empty and dot segments vanish, dot-dot pops a preceding real segment
(and is kept when there is none, as in a relative path), anything else
is pushed. -/
def cleanStep (acc : List String) (seg : String) : List String :=
  if seg = "" ∨ seg = "." then acc
  else if seg = ".." then
    match acc with
    | [] => [".."]
    | a :: rest => if a = ".." then ".." :: a :: rest else rest
  else seg :: acc

/-- Rebuild a path from segments. -/
def joinSegs : List String → String
  | [] => ""
  | [s] => s
  | s :: ss => s ++ "/" ++ joinSegs ss

/-- The destination path of a manifest entry relative to the instance
directory: filepath.Join(instanceDir, filePath) runs filepath.Clean on
the joined path, so dot and dot-dot segments of the manifest path are
resolved lexically before the path is used for stat, hashing and
download.  A path climbing out of the instance directory keeps its
leading dot-dot segments and so never collides with a normal relative
path inside it. -/
def cleanPath (p : String) : String :=
  match (splitSegsAux p.data []).foldl cleanStep [] with
  | [] => "."
  | stack => joinSegs stack.reverse

/-- Outcome of one downloadFile call.  ok c: the body was fully copied
and the destination holds c.  failEarly: the HTTP request, status
check, directory creation or os.Create failed, before the destination
was touched.  failMid tr: io.Copy failed after os.Create had already
truncated the destination, which is left holding the bytes tr copied so
far. -/
inductive FetchResult where
  | ok (content : String)
  | failEarly
  | failMid (tr : String)
  deriving DecidableEq, Repr

/-- True for the two failure outcomes of a download. -/
def FetchResult.isFail : FetchResult → Bool
  | .ok _ => false
  | .failEarly => true
  | .failMid _ => true

/-- External effects available to syncInstanceFiles.  hash models
calculateFileMD5 applied to a file's content (none = I/O error while
hashing); fetch models downloadFile for a manifest-relative path;
removeOk models whether os.Remove succeeds for a given path. -/
structure SyncEnv where
  hash : String → Option String
  fetch : String → FetchResult
  removeOk : String → Bool

/-- Running state of the per-entry download loop of syncInstanceFiles:
the instance files plus the paths for which a download was attempted
and the subset of those whose download failed. -/
structure SyncState where
  fs : FS
  attempted : List String
  failed : List String

/-- Result of syncInstanceFiles: final instance files, download
bookkeeping, and the Go error return value. -/
structure SyncResult where
  fs : FS
  attempted : List String
  failed : List String
  err : Option String

/-- One insertion into the Go map built by `manifestFiles[file.Path] = file`:
a later entry for the same path overwrites an earlier one. -/
def insertFile (m : List (String × FileInfo)) (f : FileInfo) : List (String × FileInfo) :=
  (f.path, f) :: m.filter (fun e => decide (e.1 ≠ f.path))

/-- The manifest-file lookup map of syncInstanceFiles and manifestsEqual
(`for _, file := range files { m[file.Path] = file }`). -/
def buildMap (files : List FileInfo) : List (String × FileInfo) :=
  files.foldl insertFile []

/-- The download step of the loop body of syncInstanceFiles: call
downloadFile with destination filepath.Join(instanceDir, p), that is
cleanPath p.  On success the destination is overwritten with the body;
an early failure leaves it untouched; a mid-copy failure leaves the
truncated bytes written so far (os.Create runs before io.Copy).  Either
failure is logged and the entry is skipped. -/
def doDownload (env : SyncEnv) (st : SyncState) (p : String) : SyncState :=
  match env.fetch p with
  | .ok c =>
    { st with
      fs := fsSet st.fs (cleanPath p) c
      attempted := st.attempted ++ [p] }
  | .failEarly =>
    { st with
      attempted := st.attempted ++ [p]
      failed := st.failed ++ [p] }
  | .failMid tr =>
    { st with
      fs := fsSet st.fs (cleanPath p) tr
      attempted := st.attempted ++ [p]
      failed := st.failed ++ [p] }

/-- Loop body of syncInstanceFiles for one manifest entry (path p, info fi).
The destination is filepath.Join(instanceDir, p) = cleanPath p, while
the protection check compares the raw manifest path against the string
options.txt.  An existing local file at the destination is hashed (hash
error: warn and skip; hash equal to the manifest MD5: skip) and the
file is downloaded when needed. -/
def processEntry (env : SyncEnv) (st : SyncState) (p : String) (fi : FileInfo) : SyncState :=
  if p = "options.txt" ∧ (alistGet st.fs (cleanPath p)).isSome then st
  else
    match alistGet st.fs (cleanPath p) with
    | some c =>
      match env.hash c with
      | none => st
      | some h => if h = fi.md5 then st else doDownload env st p
    | none => doDownload env st p

/-- The fixed allow-list of subdirectories cleaned by removeOrphanedFiles. -/
def directoriesToClean : List String :=
  ["mods", "config", "shaderpacks", "resourcepacks", "schematics"]

/-- The local files visited by filepath.Walk(instanceDir/d): every file
under directory d, and the path d itself when it is a regular file
(filepath.Walk applied to a non-directory root visits just that root). -/
def visitedBy (d p : String) : Bool :=
  decide (p = d) || strStarts (d ++ "/") p

/-- The walk of one allow-listed directory in removeOrphanedFiles: every
visited file absent from the manifest map is removed (when os.Remove
succeeds; a removal failure is logged and the file stays). -/
def cleanDir (mpaths : List String) (rok : String → Bool) (fs : FS) (d : String) : FS :=
  fs.filter (fun e => !(visitedBy d e.1 && !memStr mpaths e.1 && rok e.1))

/-- removeOrphanedFiles: clean each allow-listed directory in turn. -/
def removeOrphanedFiles (fs : FS) (mpaths : List String) (rok : String → Bool) : FS :=
  directoriesToClean.foldl (cleanDir mpaths rok) fs

/-- syncInstanceFiles: build the manifest map, run the download loop over
its entries, remove orphaned files, and return nil (every failure inside
is logged and tolerated, so the Go function returns nil on all paths). -/
def syncInstanceFiles (fs : FS) (env : SyncEnv) (m : DataManifest) : SyncResult :=
  let entries := buildMap m.files
  let st := entries.foldl (fun s e => processEntry env s e.1 e.2) ⟨fs, [], []⟩
  let fs2 := removeOrphanedFiles st.fs (entries.map Prod.fst) env.removeOk
  ⟨fs2, st.attempted, st.failed, none⟩

/-- The per-path file check of manifestsEqual: every entry of the first
map must exist in the second with identical MD5, Size and Modified. -/
def filesMatch (aF bF : List (String × FileInfo)) : Bool :=
  aF.all (fun e =>
    match alistGet bF e.1 with
    | none => false
    | some bf => decide (e.2.md5 = bf.md5) && decide (e.2.size = bf.size)
        && decide (e.2.modified = bf.modified))

/-- manifestsEqual: nil pointers are never equal; otherwise compare the
scalar fields, the file-list lengths, and the file maps (one direction,
as in the Go code). -/
def manifestsEqual : Option DataManifest → Option DataManifest → Bool
  | some a, some b =>
    if decide (a.serverID ≠ b.serverID) || decide (a.serverUUID ≠ b.serverUUID)
        || decide (a.generated ≠ b.generated) then false
    else if decide (a.files.length ≠ b.files.length) then false
    else filesMatch (buildMap a.files) (buildMap b.files)
  | _, _ => false

/-- External effects of the sync block of StartCmd.Run: the sync-loop
oracles, the result of downloadDataManifest (fresh), the result of
loadLocalDataManifest (localCached) and whether saveDataManifest
succeeds. -/
structure RunEnv where
  sync : SyncEnv
  fresh : Option DataManifest
  localCached : Option DataManifest
  saveOk : Bool

/-- Observable outcome of the sync block of StartCmd.Run followed by the
launch decision: final instance files, the manifest written to the local
data.json (none when not written), the attempted downloads, whether
syncInstanceFiles was invoked, whether the game launch was reached, and
the error value Run returns from this block. -/
structure RunResult where
  fs : FS
  saved : Option DataManifest
  attempted : List String
  didSync : Bool
  launched : Bool
  err : Option String

/-- The sync block of StartCmd.Run followed by the launch decision.
When cloud sync is enabled, the fresh manifest is downloaded; on error
Run returns nil immediately (no launch).  Otherwise the local cached
manifest, when loadable, is compared with the fresh one to decide
needsUpdate; data.json is always rewritten with the fresh manifest; the
file sync runs only when needsUpdate; then, unless prepare-only was
requested, the game is launched. -/
def runSyncStage (cloudEnabled prepareOnly : Bool) (fs : FS) (env : RunEnv) : RunResult :=
  if cloudEnabled then
    match env.fresh with
    | none =>
      { fs := fs, saved := none, attempted := [], didSync := false,
        launched := false, err := none }
    | some fm =>
      let needsUpdate :=
        match env.localCached with
        | some lm => !manifestsEqual (some lm) (some fm)
        | none => true
      let saved := if env.saveOk then some fm else none
      if needsUpdate then
        let r := syncInstanceFiles fs env.sync fm
        { fs := r.fs, saved := saved, attempted := r.attempted, didSync := true,
          launched := !prepareOnly, err := none }
      else
        { fs := fs, saved := saved, attempted := [], didSync := false,
          launched := !prepareOnly, err := none }
  else
    { fs := fs, saved := none, attempted := [], didSync := false,
      launched := !prepareOnly, err := none }

/-- A path targeted by orphan removal: it is visited by the walk of one
of the allow-listed directories. -/
def orphanTarget (p : String) : Bool :=
  directoriesToClean.any (fun d => visitedBy d p)

/-- The memory fields of an instance configuration (InstanceConfig). -/
structure MemConfig where
  minMemory : Int
  maxMemory : Int
  deriving DecidableEq, Repr

/-- The memory-override handling at the top of StartCmd.Run: each of the
min/max overrides is applied only when nonzero and different from the
stored value; the configuration is written (once) only when something
changed.  Returns the resulting configuration and whether WriteConfig
was called. -/
def applyMemoryOverrides (cfg : MemConfig) (mn mx : Int) : MemConfig × Bool :=
  let changed := false
  let st1 := if mn ≠ 0 ∧ mn ≠ cfg.minMemory
    then ({ cfg with minMemory := mn }, true) else (cfg, changed)
  let st2 := if mx ≠ 0 ∧ mx ≠ st1.1.maxMemory
    then ({ st1.1 with maxMemory := mx }, true) else (st1.1, st1.2)
  st2

/-
Helper lemmas: association-list lookups, frame properties of the
download loop, and the orphan-removal characterization.
-/

theorem alistGet_filter_key {α : Type} (m : List (String × α)) (pr : String × α → Bool)
    (k : String → Bool) (hk : ∀ e, pr e = k e.1) (p : String) :
    alistGet (m.filter pr) p = if k p then alistGet m p else none := by
  induction m with
  | nil => simp [alistGet]
  | cons e m ih =>
    obtain ⟨a, b⟩ := e
    by_cases hq : a = p
    · subst hq
      by_cases hpr : k a
      · rw [List.filter_cons_of_pos (by rw [hk]; exact hpr)]
        simp [alistGet, hpr, ih]
      · rw [List.filter_cons_of_neg (by rw [hk]; simpa using hpr)]
        simp [alistGet, hpr, ih]
    · by_cases hpr : k a
      · rw [List.filter_cons_of_pos (by rw [hk]; exact hpr)]
        simp only [alistGet, if_neg hq]
        exact ih
      · rw [List.filter_cons_of_neg (by rw [hk]; simpa using hpr)]
        rw [ih]
        by_cases hkp : k p
        · simp [hkp, alistGet, hq]
        · simp [hkp]

theorem alistGet_fsSet_self (fs : FS) (p c : String) :
    alistGet (fsSet fs p c) p = some c := by
  simp [fsSet, alistGet]

theorem alistGet_fsSet_ne (fs : FS) (p c q : String) (h : p ≠ q) :
    alistGet (fsSet fs p c) q = alistGet fs q := by
  simp only [fsSet, alistGet, if_neg h]
  rw [alistGet_filter_key fs _ (fun x => decide (x ≠ p)) (fun e => rfl) q]
  simp [Ne.symm h]

theorem alistGet_mem {α : Type} {m : List (String × α)} {p : String} {v : α}
    (h : alistGet m p = some v) : (p, v) ∈ m := by
  induction m with
  | nil => simp [alistGet] at h
  | cons e m ih =>
    obtain ⟨a, b⟩ := e
    by_cases hq : a = p
    · subst hq
      simp only [alistGet, if_pos rfl] at h
      injection h with hbv
      subst hbv
      exact List.mem_cons_self _ _
    · simp only [alistGet, if_neg hq] at h
      exact List.mem_cons_of_mem _ (ih h)

theorem doDownload_fs_ne (env : SyncEnv) (st : SyncState) (q p : String)
    (h : cleanPath q ≠ p) :
    alistGet (doDownload env st q).fs p = alistGet st.fs p := by
  unfold doDownload
  cases env.fetch q with
  | ok c => exact alistGet_fsSet_ne _ _ _ _ h
  | failEarly => rfl
  | failMid tr => exact alistGet_fsSet_ne _ _ _ _ h

theorem doDownload_attempted (env : SyncEnv) (st : SyncState) (q : String) :
    (doDownload env st q).attempted = st.attempted ++ [q] := by
  unfold doDownload
  cases env.fetch q <;> rfl

theorem doDownload_failed_or (env : SyncEnv) (st : SyncState) (q : String) :
    (doDownload env st q).failed = st.failed ∨
    (doDownload env st q).failed = st.failed ++ [q] := by
  unfold doDownload
  cases env.fetch q with
  | ok c => left; rfl
  | failEarly => right; rfl
  | failMid tr => right; rfl

theorem processEntry_eq_or (env : SyncEnv) (st : SyncState) (q : String) (fi : FileInfo) :
    processEntry env st q fi = st ∨ processEntry env st q fi = doDownload env st q := by
  unfold processEntry
  by_cases h1 : q = "options.txt" ∧ (alistGet st.fs (cleanPath q)).isSome
  · left
    rw [if_pos h1]
  · rw [if_neg h1]
    cases hget : alistGet st.fs (cleanPath q) with
    | none => right; rfl
    | some c =>
      dsimp only
      cases hh : env.hash c with
      | none => left; rfl
      | some hv =>
        dsimp only
        by_cases hmd : hv = fi.md5
        · left
          rw [if_pos hmd]
        · right
          rw [if_neg hmd]

theorem processEntry_fs_ne (env : SyncEnv) (st : SyncState) (q : String) (fi : FileInfo)
    (p : String) (h : cleanPath q ≠ p) :
    alistGet (processEntry env st q fi).fs p = alistGet st.fs p := by
  rcases processEntry_eq_or env st q fi with he | he <;> rw [he]
  exact doDownload_fs_ne env st q p h

theorem processEntry_attempted_ne (env : SyncEnv) (st : SyncState) (q : String) (fi : FileInfo)
    (p : String) (h : q ≠ p) :
    (p ∈ (processEntry env st q fi).attempted ↔ p ∈ st.attempted) := by
  rcases processEntry_eq_or env st q fi with he | he
  · rw [he]
  · rw [he, doDownload_attempted]
    simp [Ne.symm h]

theorem processEntry_failed_ne (env : SyncEnv) (st : SyncState) (q : String) (fi : FileInfo)
    (p : String) (h : q ≠ p) :
    (p ∈ (processEntry env st q fi).failed ↔ p ∈ st.failed) := by
  rcases processEntry_eq_or env st q fi with he | he
  · rw [he]
  · rw [he]
    rcases doDownload_failed_or env st q with hf | hf
    · rw [hf]
    · rw [hf]
      simp [Ne.symm h]

theorem foldProcess_fs_ne (env : SyncEnv) (es : List (String × FileInfo)) (st : SyncState)
    (p : String) (h : ∀ e ∈ es, cleanPath e.1 ≠ p) :
    alistGet (es.foldl (fun s e => processEntry env s e.1 e.2) st).fs p = alistGet st.fs p := by
  induction es generalizing st with
  | nil => rfl
  | cons e es ih =>
    simp only [List.foldl_cons]
    rw [ih _ (fun x hx => h x (List.mem_cons_of_mem _ hx))]
    exact processEntry_fs_ne env st e.1 e.2 p (h e (List.mem_cons_self _ _))

theorem foldProcess_attempted_ne (env : SyncEnv) (es : List (String × FileInfo)) (st : SyncState)
    (p : String) (h : ∀ e ∈ es, e.1 ≠ p) :
    (p ∈ (es.foldl (fun s e => processEntry env s e.1 e.2) st).attempted ↔ p ∈ st.attempted) := by
  induction es generalizing st with
  | nil => exact Iff.rfl
  | cons e es ih =>
    simp only [List.foldl_cons]
    rw [ih _ (fun x hx => h x (List.mem_cons_of_mem _ hx))]
    exact processEntry_attempted_ne env st e.1 e.2 p (h e (List.mem_cons_self _ _))

theorem foldProcess_failed_ne (env : SyncEnv) (es : List (String × FileInfo)) (st : SyncState)
    (p : String) (h : ∀ e ∈ es, e.1 ≠ p) :
    (p ∈ (es.foldl (fun s e => processEntry env s e.1 e.2) st).failed ↔ p ∈ st.failed) := by
  induction es generalizing st with
  | nil => exact Iff.rfl
  | cons e es ih =>
    simp only [List.foldl_cons]
    rw [ih _ (fun x hx => h x (List.mem_cons_of_mem _ hx))]
    exact processEntry_failed_ne env st e.1 e.2 p (h e (List.mem_cons_self _ _))

theorem alistGet_cleanDir (mpaths : List String) (rok : String → Bool) (fs : FS) (d p : String) :
    alistGet (cleanDir mpaths rok fs d) p =
      if visitedBy d p && !memStr mpaths p && rok p then none else alistGet fs p := by
  unfold cleanDir
  rw [alistGet_filter_key fs _ (fun x => !(visitedBy d x && !memStr mpaths x && rok x))
    (fun e => rfl) p]
  cases hc : visitedBy d p && !memStr mpaths p && rok p <;> simp [hc]

theorem alistGet_foldClean (mpaths : List String) (rok : String → Bool) (ds : List String)
    (fs : FS) (p : String) :
    alistGet (ds.foldl (cleanDir mpaths rok) fs) p =
      if ds.any (fun d => visitedBy d p) && !memStr mpaths p && rok p then none
      else alistGet fs p := by
  induction ds generalizing fs with
  | nil => simp
  | cons d ds ih =>
    simp only [List.foldl_cons]
    rw [ih (cleanDir mpaths rok fs d), alistGet_cleanDir]
    cases hv : visitedBy d p <;>
      cases ha : ds.any (fun x => visitedBy x p) <;>
        cases hm : memStr mpaths p <;>
          cases hr : rok p <;>
            simp [hv, ha, hm, hr]

theorem alistGet_removeOrphanedFiles (fs : FS) (mpaths : List String) (rok : String → Bool)
    (p : String) :
    alistGet (removeOrphanedFiles fs mpaths rok) p =
      if orphanTarget p && !memStr mpaths p && rok p then none else alistGet fs p := by
  unfold removeOrphanedFiles orphanTarget
  exact alistGet_foldClean mpaths rok directoriesToClean fs p

theorem buildMap_concat (l : List FileInfo) (f : FileInfo) :
    buildMap (l ++ [f]) = insertFile (buildMap l) f := by
  unfold buildMap
  rw [List.foldl_append]
  rfl

theorem alistGet_insertFile (m : List (String × FileInfo)) (f : FileInfo) (p : String) :
    alistGet (insertFile m f) p = if f.path = p then some f else alistGet m p := by
  unfold insertFile
  by_cases hp : f.path = p
  · simp [alistGet, hp]
  · simp only [alistGet, if_neg hp]
    rw [alistGet_filter_key m _ (fun x => decide (x ≠ f.path)) (fun e => rfl) p]
    have hps : p ≠ f.path := fun h => hp h.symm
    simp [hps]

theorem alistGet_buildMap (files : List FileInfo) (p : String) :
    alistGet (buildMap files) p = files.reverse.find? (fun g => decide (g.path = p)) := by
  induction files using List.reverseRecOn with
  | nil => rfl
  | append_singleton l f ih =>
    rw [buildMap_concat, alistGet_insertFile, List.reverse_append]
    simp only [List.reverse_cons, List.reverse_nil, List.nil_append, List.singleton_append]
    by_cases hp : f.path = p
    · rw [if_pos hp, List.find?_cons_of_pos _ (by simpa using hp)]
    · rw [if_neg hp, List.find?_cons_of_neg _ (by simpa using hp)]
      exact ih

theorem buildMap_mem {files : List FileInfo} {e : String × FileInfo}
    (h : e ∈ buildMap files) : e.2.path = e.1 ∧ e.2 ∈ files := by
  induction files using List.reverseRecOn with
  | nil => simp [buildMap] at h
  | append_singleton l f ih =>
    rw [buildMap_concat] at h
    unfold insertFile at h
    rcases List.mem_cons.1 h with he | he
    · subst he
      exact ⟨rfl, List.mem_append_right _ (List.mem_singleton_self _)⟩
    · have := ih (List.mem_of_mem_filter he)
      exact ⟨this.1, List.mem_append_left _ this.2⟩

theorem buildMap_keys_nodup (files : List FileInfo) :
    ((buildMap files).map Prod.fst).Nodup := by
  induction files using List.reverseRecOn with
  | nil => simp [buildMap]
  | append_singleton l f ih =>
    rw [buildMap_concat]
    unfold insertFile
    refine List.Nodup.cons ?_ ?_
    · intro hmem
      rcases List.mem_map.1 hmem with ⟨e, he, hkey⟩
      have := List.of_mem_filter he
      simp only [decide_eq_true_eq] at this
      exact this hkey
    · refine List.Nodup.sublist ?_ ih
      exact List.Sublist.map _ (List.filter_sublist _)

theorem find?_of_nodup_paths {l : List FileInfo} {f : FileInfo}
    (hn : (l.map FileInfo.path).Nodup) (hf : f ∈ l) :
    l.find? (fun g => decide (g.path = f.path)) = some f := by
  induction l with
  | nil => simp at hf
  | cons g gs ih =>
    rw [List.map_cons, List.nodup_cons] at hn
    by_cases hg : g.path = f.path
    · rw [List.find?_cons_of_pos _ (by simpa using hg)]
      rcases List.mem_cons.1 hf with he | he
      · rw [he]
      · exact absurd (hg ▸ List.mem_map_of_mem FileInfo.path he) hn.1
    · rw [List.find?_cons_of_neg _ (by simpa using hg)]
      rcases List.mem_cons.1 hf with he | he
      · exact absurd (he ▸ rfl) hg
      · exact ih hn.2 he

theorem alistGet_buildMap_of_nodup {files : List FileInfo} {f : FileInfo}
    (hn : (files.map FileInfo.path).Nodup) (hf : f ∈ files) :
    alistGet (buildMap files) f.path = some f := by
  rw [alistGet_buildMap]
  exact find?_of_nodup_paths (by simpa using hn) (List.mem_reverse.2 hf)

theorem alistGet_split {α : Type} {m : List (String × α)} {p : String} {v : α}
    (hn : (m.map Prod.fst).Nodup) (h : alistGet m p = some v) :
    ∃ l₁ l₂, m = l₁ ++ (p, v) :: l₂ ∧ (∀ e ∈ l₁, e.1 ≠ p) ∧ (∀ e ∈ l₂, e.1 ≠ p) := by
  induction m with
  | nil => simp [alistGet] at h
  | cons e m ih =>
    obtain ⟨a, b⟩ := e
    rw [List.map_cons, List.nodup_cons] at hn
    by_cases hq : a = p
    · subst hq
      simp only [alistGet, if_pos rfl] at h
      injection h with hbv
      subst hbv
      refine ⟨[], m, rfl, by simp, ?_⟩
      intro e he hep
      have hmm : e.1 ∈ List.map Prod.fst m := List.mem_map_of_mem Prod.fst he
      rw [hep] at hmm
      exact hn.1 hmm
    · simp only [alistGet, if_neg hq] at h
      obtain ⟨l₁, l₂, hm, h1, h2⟩ := ih hn.2 h
      refine ⟨(a, b) :: l₁, l₂, by rw [hm, List.cons_append], ?_, h2⟩
      intro x hx
      rcases List.mem_cons.1 hx with hx | hx
      · rw [hx]; exact hq
      · exact h1 x hx

theorem memStr_eq_true {l : List String} {p : String} (h : p ∈ l) : memStr l p = true := by
  induction l with
  | nil => simp at h
  | cons q qs ih =>
    rcases List.mem_cons.1 h with hq | hq
    · simp [memStr, hq]
    · simp [memStr, ih hq]

theorem removeOrphan_preserve_of_mem (fs : FS) (mpaths : List String) (rok : String → Bool)
    (p : String) (h : p ∈ mpaths) :
    alistGet (removeOrphanedFiles fs mpaths rok) p = alistGet fs p := by
  rw [alistGet_removeOrphanedFiles]
  simp [memStr_eq_true h]

theorem removeOrphan_preserve_of_not_target (fs : FS) (mpaths : List String)
    (rok : String → Bool) (p : String) (h : orphanTarget p = false) :
    alistGet (removeOrphanedFiles fs mpaths rok) p = alistGet fs p := by
  rw [alistGet_removeOrphanedFiles]
  simp [h]

theorem sync_err_none (fs : FS) (env : SyncEnv) (m : DataManifest) :
    (syncInstanceFiles fs env m).err = none := rfl

theorem sync_unfold_at (fs : FS) (env : SyncEnv) (m : DataManifest) (p : String) (fi : FileInfo)
    (hfi : alistGet (buildMap m.files) p = some fi)
    (halias : ∀ e ∈ buildMap m.files, e.1 ≠ p → cleanPath e.1 ≠ cleanPath p) :
    ∃ st : SyncState,
      alistGet st.fs (cleanPath p) = alistGet fs (cleanPath p) ∧
      p ∉ st.attempted ∧ p ∉ st.failed ∧
      (cleanPath p ∈ (buildMap m.files).map Prod.fst →
        alistGet (syncInstanceFiles fs env m).fs (cleanPath p) =
          alistGet (processEntry env st p fi).fs (cleanPath p)) ∧
      (p ∈ (syncInstanceFiles fs env m).attempted ↔ p ∈ (processEntry env st p fi).attempted) ∧
      (p ∈ (syncInstanceFiles fs env m).failed ↔ p ∈ (processEntry env st p fi).failed) := by
  obtain ⟨l₁, l₂, hsplit, h1, h2⟩ := alistGet_split (buildMap_keys_nodup m.files) hfi
  have hm1 : ∀ e ∈ l₁, e ∈ buildMap m.files := by
    intro e he
    rw [hsplit]
    exact List.mem_append_left _ he
  have hm2 : ∀ e ∈ l₂, e ∈ buildMap m.files := by
    intro e he
    rw [hsplit]
    exact List.mem_append_right _ (List.mem_cons_of_mem _ he)
  have hc1 : ∀ e ∈ l₁, cleanPath e.1 ≠ cleanPath p :=
    fun e he => halias e (hm1 e he) (h1 e he)
  have hc2 : ∀ e ∈ l₂, cleanPath e.1 ≠ cleanPath p :=
    fun e he => halias e (hm2 e he) (h2 e he)
  refine ⟨l₁.foldl (fun s e => processEntry env s e.1 e.2) ⟨fs, [], []⟩, ?_, ?_, ?_, ?_, ?_, ?_⟩
  · exact foldProcess_fs_ne env l₁ _ (cleanPath p) hc1
  · rw [foldProcess_attempted_ne env l₁ _ p h1]
    simp
  · rw [foldProcess_failed_ne env l₁ _ p h1]
    simp
  · intro hmem
    show alistGet (removeOrphanedFiles _ _ _) (cleanPath p) = _
    rw [removeOrphan_preserve_of_mem _ _ _ _ hmem, hsplit, List.foldl_append, List.foldl_cons]
    exact foldProcess_fs_ne env l₂ _ (cleanPath p) hc2
  · show p ∈ ((buildMap m.files).foldl
        (fun s e => processEntry env s e.1 e.2) ⟨fs, [], []⟩).attempted ↔ _
    rw [hsplit, List.foldl_append, List.foldl_cons]
    exact foldProcess_attempted_ne env l₂ _ p h2
  · show p ∈ ((buildMap m.files).foldl
        (fun s e => processEntry env s e.1 e.2) ⟨fs, [], []⟩).failed ↔ _
    rw [hsplit, List.foldl_append, List.foldl_cons]
    exact foldProcess_failed_ne env l₂ _ p h2

theorem processEntry_hash_fail (env : SyncEnv) (st : SyncState) (p : String) (fi : FileInfo)
    (c : String) (hc : alistGet st.fs (cleanPath p) = some c) (hh : env.hash c = none) :
    processEntry env st p fi = st := by
  unfold processEntry
  by_cases h1 : p = "options.txt" ∧ (alistGet st.fs (cleanPath p)).isSome
  · rw [if_pos h1]
  · rw [if_neg h1]
    simp only [hc, hh]

theorem processEntry_hash_match (env : SyncEnv) (st : SyncState) (p : String) (fi : FileInfo)
    (c : String) (hc : alistGet st.fs (cleanPath p) = some c) (hh : env.hash c = some fi.md5) :
    processEntry env st p fi = st := by
  unfold processEntry
  by_cases h1 : p = "options.txt" ∧ (alistGet st.fs (cleanPath p)).isSome
  · rw [if_pos h1]
  · rw [if_neg h1]
    simp [hc, hh]

theorem processEntry_download_missing (env : SyncEnv) (st : SyncState) (p : String)
    (fi : FileInfo) (hc : alistGet st.fs (cleanPath p) = none) :
    processEntry env st p fi = doDownload env st p := by
  unfold processEntry
  rw [if_neg (by rw [hc]; simp), hc]

theorem processEntry_download_mismatch (env : SyncEnv) (st : SyncState) (p : String)
    (fi : FileInfo) (c h : String) (hc : alistGet st.fs (cleanPath p) = some c)
    (hh : env.hash c = some h) (hne : h ≠ fi.md5) (hp : p ≠ "options.txt") :
    processEntry env st p fi = doDownload env st p := by
  unfold processEntry
  rw [if_neg (fun hand => hp hand.1)]
  simp only [hc, hh, if_neg hne]

theorem doDownload_mem_attempted (env : SyncEnv) (st : SyncState) (p : String) :
    p ∈ (doDownload env st p).attempted := by
  rw [doDownload_attempted]
  simp

theorem doDownload_mem_failed (env : SyncEnv) (st : SyncState) (p : String)
    (hf : (env.fetch p).isFail = true) :
    p ∈ (doDownload env st p).failed := by
  unfold doDownload
  cases hfr : env.fetch p with
  | ok c => rw [hfr] at hf; simp [FetchResult.isFail] at hf
  | failEarly => simp
  | failMid tr => simp

theorem doDownload_fs_self (env : SyncEnv) (st : SyncState) (p nc : String)
    (hf : env.fetch p = FetchResult.ok nc) :
    alistGet (doDownload env st p).fs (cleanPath p) = some nc := by
  unfold doDownload
  rw [hf]
  exact alistGet_fsSet_self _ _ _

theorem processEntry_preserve_options (env : SyncEnv) (st : SyncState) (q : String)
    (fi : FileInfo) (c : String)
    (hqa : q = "options.txt" ∨ cleanPath q ≠ "options.txt")
    (hc : alistGet st.fs "options.txt" = some c) :
    alistGet (processEntry env st q fi).fs "options.txt" = some c := by
  rcases hqa with hq | hq
  · subst hq
    unfold processEntry
    rw [if_pos ⟨rfl, by show (alistGet st.fs "options.txt").isSome = true; rw [hc]; rfl⟩]
    exact hc
  · rw [processEntry_fs_ne env st q fi _ hq]
    exact hc

theorem foldProcess_preserve_options (env : SyncEnv) (es : List (String × FileInfo))
    (st : SyncState) (c : String)
    (hqa : ∀ e ∈ es, e.1 = "options.txt" ∨ cleanPath e.1 ≠ "options.txt")
    (hc : alistGet st.fs "options.txt" = some c) :
    alistGet ((es.foldl (fun s e => processEntry env s e.1 e.2) st)).fs "options.txt" = some c := by
  induction es generalizing st with
  | nil => exact hc
  | cons e es ih =>
    simp only [List.foldl_cons]
    exact ih _ (fun x hx => hqa x (List.mem_cons_of_mem _ hx))
      (processEntry_preserve_options env st e.1 e.2 c (hqa e (List.mem_cons_self _ _)) hc)

/-
Claims C1, C5, C7, C10: properties of syncInstanceFiles.
-/

/-- Claim C1 counterexample: the protection check compares the raw
manifest path with options.txt, but the destination is the cleaned
join; a manifest entry with path ./options.txt therefore bypasses the
protection, and on hash mismatch the sync downloads over the local
options.txt: its content changes from local to remote. -/
theorem C1_counterexample :
    alistGet [("options.txt", "local")] "options.txt" = some "local" ∧
    alistGet (syncInstanceFiles [("options.txt", "local")]
        ⟨fun _ => some "aaaa", fun _ => FetchResult.ok "remote", fun _ => true⟩
        ⟨1, "u", [⟨"./options.txt", "bbbb", 5, 7⟩], 9⟩).fs "options.txt" = some "remote" := by
  exact ⟨rfl, rfl⟩

/-- Claim C1 amended: provided no manifest entry is a dot or dot-dot
alias of options.txt (every entry whose cleaned destination is
options.txt has the literal path options.txt), a file already present
at the relative path exactly options.txt is never overwritten and never
removed by syncInstanceFiles, even when its content hash differs from
the manifest entry, so its content is identical before and after the
sync. -/
theorem C1_options_txt_protected (fs : FS) (env : SyncEnv) (m : DataManifest) (c : String)
    (h : alistGet fs "options.txt" = some c)
    (hno : ∀ e ∈ buildMap m.files, cleanPath e.1 = "options.txt" → e.1 = "options.txt") :
    alistGet (syncInstanceFiles fs env m).fs "options.txt" = some c := by
  show alistGet (removeOrphanedFiles _ _ _) _ = _
  rw [removeOrphan_preserve_of_not_target _ _ _ _ (by decide)]
  refine foldProcess_preserve_options env _ _ c ?_ h
  intro e he
  by_cases hcl : cleanPath e.1 = "options.txt"
  · exact Or.inl (hno e he hcl)
  · exact Or.inr hcl

/-- Witness for C1 amended: a concrete sync run against an alias-free
manifest whose options.txt entry has a different MD5 leaves the local
options.txt content unchanged. -/
theorem C1_options_txt_protected_witness :
    alistGet (syncInstanceFiles [("options.txt", "local settings")]
      ⟨fun _ => some "deadbeef", fun _ => FetchResult.ok "remote", fun _ => true⟩
      ⟨1, "u", [⟨"options.txt", "0123", 5, 7⟩], 9⟩).fs "options.txt" = some "local settings" :=
  C1_options_txt_protected [("options.txt", "local settings")]
    ⟨fun _ => some "deadbeef", fun _ => FetchResult.ok "remote", fun _ => true⟩
    ⟨1, "u", [⟨"options.txt", "0123", 5, 7⟩], 9⟩ "local settings" rfl (by decide)

/-- Claim C10 (confirmed): during sync, for a manifest entry whose
destination is clean and not aliased by another entry, if a local file
exists at the destination but computing its hash fails, the entry is
skipped entirely: the file is neither downloaded nor modified, and the
sync continues and still returns nil. -/
theorem C10_hash_failure_skips_entry (fs : FS) (env : SyncEnv) (m : DataManifest)
    (p : String) (fi : FileInfo) (c : String)
    (hfi : alistGet (buildMap m.files) p = some fi)
    (hclean : cleanPath p = p)
    (halias : ∀ e ∈ buildMap m.files, e.1 ≠ p → cleanPath e.1 ≠ p)
    (hc : alistGet fs p = some c) (hh : env.hash c = none) :
    alistGet (syncInstanceFiles fs env m).fs p = some c ∧
    p ∉ (syncInstanceFiles fs env m).attempted ∧
    (syncInstanceFiles fs env m).err = none := by
  have halias2 : ∀ e ∈ buildMap m.files, e.1 ≠ p → cleanPath e.1 ≠ cleanPath p := by
    simp only [hclean]
    exact halias
  obtain ⟨st, hst, hatt, hfail, hfs, hiffA, hiffF⟩ := sync_unfold_at fs env m p fi hfi halias2
  rw [hclean] at hst hfs
  have hkey : p ∈ (buildMap m.files).map Prod.fst :=
    List.mem_map_of_mem Prod.fst (alistGet_mem hfi)
  have hstc : alistGet st.fs p = some c := by rw [hst]; exact hc
  have hpe : processEntry env st p fi = st :=
    processEntry_hash_fail env st p fi c (by rw [hclean]; exact hstc) hh
  rw [hpe] at hfs hiffA
  exact ⟨by rw [hfs hkey]; exact hstc, fun hm => hatt (hiffA.1 hm), rfl⟩

/-- Witness for C10: a concrete sync run in which hashing the existing
local file fails leaves the file unchanged and downloads nothing. -/
theorem C10_hash_failure_skips_entry_witness :
    alistGet (syncInstanceFiles [("mods/a.jar", "bytes")]
      ⟨fun _ => none, fun _ => FetchResult.ok "remote", fun _ => true⟩
      ⟨1, "u", [⟨"mods/a.jar", "abc", 10, 1⟩], 1⟩).fs "mods/a.jar" = some "bytes" :=
  (C10_hash_failure_skips_entry [("mods/a.jar", "bytes")]
    ⟨fun _ => none, fun _ => FetchResult.ok "remote", fun _ => true⟩
    ⟨1, "u", [⟨"mods/a.jar", "abc", 10, 1⟩], 1⟩ "mods/a.jar"
    ⟨"mods/a.jar", "abc", 10, 1⟩ "bytes" rfl rfl (by decide) rfl rfl).1

/-- Claim C5 (confirmed): for every manifest entry whose destination is
clean and not aliased by another entry, other than a protected existing
options.txt: when a local file exists at the destination and its
computed MD5 equals the entry's MD5, no download is performed and the
file is untouched; when the hash differs or the file is missing, the
file is downloaded, and (when the download succeeds) the local copy is
overwritten with the downloaded content. -/
theorem C5_hash_decides_download (fs : FS) (env : SyncEnv) (m : DataManifest)
    (p : String) (fi : FileInfo)
    (hfi : alistGet (buildMap m.files) p = some fi)
    (hclean : cleanPath p = p)
    (halias : ∀ e ∈ buildMap m.files, e.1 ≠ p → cleanPath e.1 ≠ p)
    (hprot : ¬(p = "options.txt" ∧ (alistGet fs p).isSome)) :
    (∀ c, alistGet fs p = some c → env.hash c = some fi.md5 →
      p ∉ (syncInstanceFiles fs env m).attempted ∧
      alistGet (syncInstanceFiles fs env m).fs p = some c) ∧
    (∀ c h, alistGet fs p = some c → env.hash c = some h → h ≠ fi.md5 →
      p ∈ (syncInstanceFiles fs env m).attempted ∧
      ∀ nc, env.fetch p = FetchResult.ok nc →
        alistGet (syncInstanceFiles fs env m).fs p = some nc) ∧
    (alistGet fs p = none →
      p ∈ (syncInstanceFiles fs env m).attempted ∧
      ∀ nc, env.fetch p = FetchResult.ok nc →
        alistGet (syncInstanceFiles fs env m).fs p = some nc) := by
  have halias2 : ∀ e ∈ buildMap m.files, e.1 ≠ p → cleanPath e.1 ≠ cleanPath p := by
    simp only [hclean]
    exact halias
  obtain ⟨st, hst, hatt, hfail, hfs, hiffA, hiffF⟩ := sync_unfold_at fs env m p fi hfi halias2
  rw [hclean] at hst hfs
  have hkey : p ∈ (buildMap m.files).map Prod.fst :=
    List.mem_map_of_mem Prod.fst (alistGet_mem hfi)
  refine ⟨?_, ?_, ?_⟩
  · intro c hc hh
    have hstc : alistGet st.fs p = some c := by rw [hst]; exact hc
    have hpe : processEntry env st p fi = st :=
      processEntry_hash_match env st p fi c (by rw [hclean]; exact hstc) hh
    rw [hpe] at hfs hiffA
    exact ⟨fun hm => hatt (hiffA.1 hm), by rw [hfs hkey]; exact hstc⟩
  · intro c h hc hh hne
    have hstc : alistGet st.fs p = some c := by rw [hst]; exact hc
    have hp : p ≠ "options.txt" := by
      intro hpe
      exact hprot ⟨hpe, by rw [hc]; rfl⟩
    have hpe : processEntry env st p fi = doDownload env st p :=
      processEntry_download_mismatch env st p fi c h (by rw [hclean]; exact hstc) hh hne hp
    rw [hpe] at hfs hiffA
    refine ⟨hiffA.2 (doDownload_mem_attempted env st p), ?_⟩
    intro nc hnc
    rw [hfs hkey]
    have hd := doDownload_fs_self env st p nc hnc
    rw [hclean] at hd
    exact hd
  · intro hc
    have hstc : alistGet st.fs p = none := by rw [hst]; exact hc
    have hpe : processEntry env st p fi = doDownload env st p :=
      processEntry_download_missing env st p fi (by rw [hclean]; exact hstc)
    rw [hpe] at hfs hiffA
    refine ⟨hiffA.2 (doDownload_mem_attempted env st p), ?_⟩
    intro nc hnc
    rw [hfs hkey]
    have hd := doDownload_fs_self env st p nc hnc
    rw [hclean] at hd
    exact hd

/-- Witness for C5: a concrete sync run with a matching local hash
downloads nothing, and one with a missing local file downloads and
writes the fetched content. -/
theorem C5_hash_decides_download_witness :
    ("mods/a.jar" ∉ (syncInstanceFiles [("mods/a.jar", "bytes")]
        ⟨fun _ => some "abc", fun _ => FetchResult.ok "remote", fun _ => true⟩
        ⟨1, "u", [⟨"mods/a.jar", "abc", 10, 1⟩], 1⟩).attempted) ∧
    alistGet (syncInstanceFiles []
        ⟨fun _ => some "abc", fun _ => FetchResult.ok "remote", fun _ => true⟩
        ⟨1, "u", [⟨"mods/a.jar", "abc", 10, 1⟩], 1⟩).fs "mods/a.jar" = some "remote" :=
  ⟨((C5_hash_decides_download [("mods/a.jar", "bytes")]
      ⟨fun _ => some "abc", fun _ => FetchResult.ok "remote", fun _ => true⟩
      ⟨1, "u", [⟨"mods/a.jar", "abc", 10, 1⟩], 1⟩ "mods/a.jar"
      ⟨"mods/a.jar", "abc", 10, 1⟩ rfl rfl (by decide) (by decide)).1 "bytes" rfl rfl).1,
   ((C5_hash_decides_download []
      ⟨fun _ => some "abc", fun _ => FetchResult.ok "remote", fun _ => true⟩
      ⟨1, "u", [⟨"mods/a.jar", "abc", 10, 1⟩], 1⟩ "mods/a.jar"
      ⟨"mods/a.jar", "abc", 10, 1⟩ rfl rfl (by decide) (by decide)).2.2 rfl).2 "remote" rfl⟩

/-- Claim C7 counterexample: a concrete sync run in which every manifest
file fails to download, yet syncInstanceFiles still returns nil
(success), contradicting the claim that sync returns success only when
not every file failed. -/
theorem C7_counterexample :
    (syncInstanceFiles [] ⟨fun _ => none, fun _ => FetchResult.failEarly, fun _ => true⟩
        ⟨1, "u", [⟨"mods/a.jar", "abc", 10, 1⟩], 1⟩).attempted = ["mods/a.jar"] ∧
    (syncInstanceFiles [] ⟨fun _ => none, fun _ => FetchResult.failEarly, fun _ => true⟩
        ⟨1, "u", [⟨"mods/a.jar", "abc", 10, 1⟩], 1⟩).failed = ["mods/a.jar"] ∧
    (syncInstanceFiles [] ⟨fun _ => none, fun _ => FetchResult.failEarly, fun _ => true⟩
        ⟨1, "u", [⟨"mods/a.jar", "abc", 10, 1⟩], 1⟩).err = none := by
  exact ⟨rfl, rfl, rfl⟩

/-- Claim C7 amended: an individual file download failure during sync is
logged and skipped — the sync does not abort: every remaining manifest
entry is still examined (any non-aliased entry whose local file is
missing still has its download attempted, and its own failure is merely
recorded) — and the overall sync operation always returns success, even
when every file failed. -/
theorem C7_failures_tolerated (fs : FS) (env : SyncEnv) (m : DataManifest) :
    (syncInstanceFiles fs env m).err = none ∧
    (∀ p fi, alistGet (buildMap m.files) p = some fi →
      (∀ e ∈ buildMap m.files, e.1 ≠ p → cleanPath e.1 ≠ cleanPath p) →
      alistGet fs (cleanPath p) = none →
      p ∈ (syncInstanceFiles fs env m).attempted ∧
      ((env.fetch p).isFail = true → p ∈ (syncInstanceFiles fs env m).failed)) := by
  refine ⟨rfl, ?_⟩
  intro p fi hfi halias hc
  obtain ⟨st, hst, hatt, hfail, hfs, hiffA, hiffF⟩ := sync_unfold_at fs env m p fi hfi halias
  have hstc : alistGet st.fs (cleanPath p) = none := by rw [hst]; exact hc
  have hpe : processEntry env st p fi = doDownload env st p :=
    processEntry_download_missing env st p fi hstc
  rw [hpe] at hiffA hiffF
  exact ⟨hiffA.2 (doDownload_mem_attempted env st p),
    fun hff => hiffF.2 (doDownload_mem_failed env st p hff)⟩

/-- Witness for C7 amended: with every download failing, the second
manifest entry is still attempted after the first entry failed, and its
failure is recorded. -/
theorem C7_failures_tolerated_witness :
    "mods/b.jar" ∈ (syncInstanceFiles []
      ⟨fun _ => some "h", fun _ => FetchResult.failEarly, fun _ => true⟩
      ⟨1, "u", [⟨"mods/a.jar", "a1", 1, 1⟩, ⟨"mods/b.jar", "b1", 1, 1⟩], 1⟩).attempted ∧
    "mods/b.jar" ∈ (syncInstanceFiles []
      ⟨fun _ => some "h", fun _ => FetchResult.failEarly, fun _ => true⟩
      ⟨1, "u", [⟨"mods/a.jar", "a1", 1, 1⟩, ⟨"mods/b.jar", "b1", 1, 1⟩], 1⟩).failed := by
  have h := (C7_failures_tolerated []
    ⟨fun _ => some "h", fun _ => FetchResult.failEarly, fun _ => true⟩
    ⟨1, "u", [⟨"mods/a.jar", "a1", 1, 1⟩, ⟨"mods/b.jar", "b1", 1, 1⟩], 1⟩).2
    "mods/b.jar" ⟨"mods/b.jar", "b1", 1, 1⟩ rfl (by decide) rfl
  exact ⟨h.1, h.2 rfl⟩

/-
Claim C4: orphan removal.
-/

/-- Claim C4 counterexample: a regular file named exactly mods sitting in
the instance root lies under none of the allow-listed subdirectories,
yet removeOrphanedFiles deletes it when it is absent from the manifest:
filepath.Walk applied to a root path that is a regular file visits that
file itself, so the walk of instanceDir/mods visits the file mods. -/
theorem C4_counterexample :
    (∀ d ∈ directoriesToClean, strStarts (d ++ "/") "mods" = false) ∧
    alistGet (removeOrphanedFiles [("mods", "data")] [] (fun _ => true)) "mods" = none := by
  exact ⟨by decide, rfl⟩

/-- Claim C4 amended: orphan removal deletes exactly the local files
that are visited by the walk of one of the five allow-listed directory
names (files under such a directory, or a regular file named exactly
like one), are absent from the manifest's path set, and whose removal
succeeds; every other file — in particular any other file in the
instance root — is left exactly as it was. -/
theorem C4_orphan_removal_exact (fs : FS) (mpaths : List String) (rok : String → Bool)
    (p : String) :
    alistGet (removeOrphanedFiles fs mpaths rok) p =
      if orphanTarget p && !memStr mpaths p && rok p then none else alistGet fs p :=
  alistGet_removeOrphanedFiles fs mpaths rok p

/-
Claim C6: manifest equality and order independence.
-/

/-- Claim C6 counterexample: two manifests with identical scalar fields
whose file lists are permutations of each other compare unequal: with a
duplicated path carrying two different hashes, the Go map retains only
the last entry per path, and the two orders retain different winners, so
manifestsEqual returns false on a permuted pair. -/
theorem C6_counterexample :
    ([(⟨"p", "h1", 1, 1⟩ : FileInfo), ⟨"p", "h2", 1, 1⟩].Perm
        [(⟨"p", "h2", 1, 1⟩ : FileInfo), ⟨"p", "h1", 1, 1⟩]) ∧
    manifestsEqual (some ⟨1, "u", [⟨"p", "h1", 1, 1⟩, ⟨"p", "h2", 1, 1⟩], 5⟩)
        (some ⟨1, "u", [⟨"p", "h2", 1, 1⟩, ⟨"p", "h1", 1, 1⟩], 5⟩) = false := by
  exact ⟨by decide, by decide⟩

/-- Claim C6 amended: for manifests whose file lists contain no
duplicate paths, manifest equality is order-independent and exact: it
returns true precisely when ServerID, ServerUUID and Generated agree and
the file lists are permutations of each other (same paths with identical
MD5, Size and Modified). -/
theorem C6_manifestsEqual_order_independent (a b : DataManifest)
    (ha : (a.files.map FileInfo.path).Nodup) (hb : (b.files.map FileInfo.path).Nodup) :
    manifestsEqual (some a) (some b) = true ↔
      (a.serverID = b.serverID ∧ a.serverUUID = b.serverUUID ∧ a.generated = b.generated ∧
        a.files.Perm b.files) := by
  constructor
  · intro h
    have hsid : a.serverID = b.serverID := by
      by_contra hne
      simp [manifestsEqual, hne] at h
    have hsuuid : a.serverUUID = b.serverUUID := by
      by_contra hne
      simp [manifestsEqual, hne] at h
    have hgen : a.generated = b.generated := by
      by_contra hne
      simp [manifestsEqual, hne] at h
    have hlen : a.files.length = b.files.length := by
      by_contra hne
      simp [manifestsEqual, hsid, hsuuid, hgen, hne] at h
    have hmatch : filesMatch (buildMap a.files) (buildMap b.files) = true := by
      simpa [manifestsEqual, hsid, hsuuid, hgen, hlen] using h
    have hsub : a.files ⊆ b.files := by
      intro f hf
      have hget : alistGet (buildMap a.files) f.path = some f :=
        alistGet_buildMap_of_nodup ha hf
      have hall := (List.all_eq_true.1 hmatch) _ (alistGet_mem hget)
      dsimp only at hall
      cases hbf : alistGet (buildMap b.files) f.path with
      | none => rw [hbf] at hall; simp at hall
      | some bf =>
        rw [hbf] at hall
        dsimp only at hall
        simp only [Bool.and_eq_true, decide_eq_true_eq] at hall
        obtain ⟨hbpath, hbmem⟩ := buildMap_mem (alistGet_mem hbf)
        have : f = bf := by
          cases f
          cases bf
          simp only [FileInfo.mk.injEq]
          exact ⟨hbpath.symm, hall.1.1, hall.1.2, hall.2⟩
        rw [this]
        exact hbmem
    have hnd : a.files.Nodup := List.Nodup.of_map _ ha
    exact ⟨hsid, hsuuid, hgen,
      (List.subperm_of_subset hnd hsub).perm_of_length_le (le_of_eq hlen.symm)⟩
  · rintro ⟨hsid, hsuuid, hgen, hperm⟩
    have hlen := hperm.length_eq
    simp only [manifestsEqual]
    rw [if_neg (by simp [hsid, hsuuid, hgen]), if_neg (by simp [hlen])]
    unfold filesMatch
    rw [List.all_eq_true]
    intro e he
    obtain ⟨hpath, hmem⟩ := buildMap_mem he
    have hbmem : e.2 ∈ b.files := hperm.mem_iff.1 hmem
    have hget : alistGet (buildMap b.files) e.2.path = some e.2 :=
      alistGet_buildMap_of_nodup hb hbmem
    rw [← hpath, hget]
    simp

/-- Witness for C6 amended: two concrete duplicate-free manifests whose
file lists are reversals of each other compare equal. -/
theorem C6_manifestsEqual_order_independent_witness :
    manifestsEqual (some ⟨1, "u", [⟨"a", "h1", 1, 1⟩, ⟨"b", "h2", 2, 2⟩], 5⟩)
      (some ⟨1, "u", [⟨"b", "h2", 2, 2⟩, ⟨"a", "h1", 1, 1⟩], 5⟩) = true :=
  (C6_manifestsEqual_order_independent
      ⟨1, "u", [⟨"a", "h1", 1, 1⟩, ⟨"b", "h2", 2, 2⟩], 5⟩
      ⟨1, "u", [⟨"b", "h2", 2, 2⟩, ⟨"a", "h1", 1, 1⟩], 5⟩
      (by decide) (by decide)).2 ⟨rfl, rfl, rfl, by decide⟩

/-
Claims C2, C3, C9: the sync block of StartCmd.Run.
-/

/-- Claim C2, evaluated at the failing input: with cloud sync enabled
and the data-manifest download failing, StartCmd.Run returns nil without
ever reaching the game launch, so a sync-stage failure is fatal to the
launch, contradicting the claim that the launch proceeds with stale
files. -/
theorem C2_manifest_failure_aborts_launch :
    (runSyncStage true false []
        ⟨⟨fun _ => none, fun _ => FetchResult.failEarly, fun _ => true⟩, none, none, true⟩).launched = false ∧
    (runSyncStage true false []
        ⟨⟨fun _ => none, fun _ => FetchResult.failEarly, fun _ => true⟩, none, none, true⟩).err = none := by
  exact ⟨rfl, rfl⟩

/-- Claim C3 (confirmed): when the freshly fetched manifest compares
equal to the locally cached one, the per-file synchronization work is
skipped entirely — no downloads are attempted, syncInstanceFiles is not
invoked and the instance files are untouched — yet the local cached
manifest file is still rewritten with the freshly downloaded copy. -/
theorem C3_equal_manifest_skips_sync (fs : FS) (env : RunEnv) (po : Bool)
    (lm fm : DataManifest)
    (hf : env.fresh = some fm) (hl : env.localCached = some lm)
    (heq : manifestsEqual (some lm) (some fm) = true) (hs : env.saveOk = true) :
    (runSyncStage true po fs env).attempted = [] ∧
    (runSyncStage true po fs env).didSync = false ∧
    (runSyncStage true po fs env).fs = fs ∧
    (runSyncStage true po fs env).saved = some fm := by
  simp [runSyncStage, hf, hl, heq, hs]

/-- Witness for C3: a second run against an unchanged remote manifest
(the cached and fresh manifests coincide) attempts zero transfers and
still rewrites the cached manifest. -/
theorem C3_equal_manifest_skips_sync_witness :
    (runSyncStage true false []
        ⟨⟨fun _ => none, fun _ => FetchResult.failEarly, fun _ => true⟩,
          some ⟨1, "u", [⟨"mods/a.jar", "abc", 10, 1⟩], 5⟩,
          some ⟨1, "u", [⟨"mods/a.jar", "abc", 10, 1⟩], 5⟩, true⟩).attempted = [] ∧
    (runSyncStage true false []
        ⟨⟨fun _ => none, fun _ => FetchResult.failEarly, fun _ => true⟩,
          some ⟨1, "u", [⟨"mods/a.jar", "abc", 10, 1⟩], 5⟩,
          some ⟨1, "u", [⟨"mods/a.jar", "abc", 10, 1⟩], 5⟩, true⟩).didSync = false ∧
    (runSyncStage true false []
        ⟨⟨fun _ => none, fun _ => FetchResult.failEarly, fun _ => true⟩,
          some ⟨1, "u", [⟨"mods/a.jar", "abc", 10, 1⟩], 5⟩,
          some ⟨1, "u", [⟨"mods/a.jar", "abc", 10, 1⟩], 5⟩, true⟩).fs = [] ∧
    (runSyncStage true false []
        ⟨⟨fun _ => none, fun _ => FetchResult.failEarly, fun _ => true⟩,
          some ⟨1, "u", [⟨"mods/a.jar", "abc", 10, 1⟩], 5⟩,
          some ⟨1, "u", [⟨"mods/a.jar", "abc", 10, 1⟩], 5⟩, true⟩).saved =
      some ⟨1, "u", [⟨"mods/a.jar", "abc", 10, 1⟩], 5⟩ :=
  C3_equal_manifest_skips_sync []
    ⟨⟨fun _ => none, fun _ => FetchResult.failEarly, fun _ => true⟩,
      some ⟨1, "u", [⟨"mods/a.jar", "abc", 10, 1⟩], 5⟩,
      some ⟨1, "u", [⟨"mods/a.jar", "abc", 10, 1⟩], 5⟩, true⟩ false
    ⟨1, "u", [⟨"mods/a.jar", "abc", 10, 1⟩], 5⟩
    ⟨1, "u", [⟨"mods/a.jar", "abc", 10, 1⟩], 5⟩
    rfl rfl (by decide) rfl

/-- Claim C9 (confirmed): manifestsEqual returns false whenever either
argument is nil, including when both are; consequently, when the local
cached manifest is missing or unreadable, the sync block performs a full
synchronization pass instead of the skip fast path. -/
theorem C9_nil_manifest_never_equal :
    (∀ x, manifestsEqual none x = false ∧ manifestsEqual x none = false) ∧
    (∀ (fs : FS) (env : RunEnv) (po : Bool) (fm : DataManifest),
      env.fresh = some fm → env.localCached = none →
      (runSyncStage true po fs env).didSync = true) := by
  constructor
  · intro x
    constructor
    · cases x <;> rfl
    · cases x <;> rfl
  · intro fs env po fm hf hl
    simp [runSyncStage, hf, hl]

/-- Witness for C9: with a missing local cached manifest, the concrete
run performs the synchronization pass. -/
theorem C9_nil_manifest_never_equal_witness :
    (runSyncStage true false []
        ⟨⟨fun _ => none, fun _ => FetchResult.failEarly, fun _ => true⟩,
          some ⟨1, "u", [], 5⟩, none, true⟩).didSync = true :=
  C9_nil_manifest_never_equal.2 []
    ⟨⟨fun _ => none, fun _ => FetchResult.failEarly, fun _ => true⟩, some ⟨1, "u", [], 5⟩, none, true⟩
    false ⟨1, "u", [], 5⟩ rfl rfl

/-
Claim C8: memory overrides and the configuration write.
-/

/-- Claim C8 (confirmed): the memory-override handling of StartCmd.Run
persists the configuration only when an override genuinely differs from
the stored value: when each given value is zero (unspecified) or equal
to the stored one, the configuration is unchanged and WriteConfig is not
called; when some nonzero value differs, the configuration is written
once, with every differing nonzero override stored. -/
theorem C8_memory_override_write_policy (cfg : MemConfig) (mn mx : Int) :
    (((mn = 0 ∨ mn = cfg.minMemory) ∧ (mx = 0 ∨ mx = cfg.maxMemory)) →
      applyMemoryOverrides cfg mn mx = (cfg, false)) ∧
    (((mn ≠ 0 ∧ mn ≠ cfg.minMemory) ∨ (mx ≠ 0 ∧ mx ≠ cfg.maxMemory)) →
      ((applyMemoryOverrides cfg mn mx).2 = true ∧
       ((mn ≠ 0 ∧ mn ≠ cfg.minMemory) →
         (applyMemoryOverrides cfg mn mx).1.minMemory = mn) ∧
       ((mx ≠ 0 ∧ mx ≠ cfg.maxMemory) →
         (applyMemoryOverrides cfg mn mx).1.maxMemory = mx))) := by
  constructor
  · rintro ⟨hmn, hmx⟩
    have h1 : ¬(mn ≠ 0 ∧ mn ≠ cfg.minMemory) := by
      rcases hmn with h | h <;> simp [h]
    have h2 : ¬(mx ≠ 0 ∧ mx ≠ cfg.maxMemory) := by
      rcases hmx with h | h <;> simp [h]
    simp [applyMemoryOverrides, h1, h2]
  · intro hdiff
    by_cases h1 : mn ≠ 0 ∧ mn ≠ cfg.minMemory <;>
      by_cases h2 : mx ≠ 0 ∧ mx ≠ cfg.maxMemory
    · exact ⟨by simp [applyMemoryOverrides, h1, h2],
        fun _ => by simp [applyMemoryOverrides, h1, h2],
        fun _ => by simp [applyMemoryOverrides, h1, h2]⟩
    · exact ⟨by simp [applyMemoryOverrides, h1, h2],
        fun _ => by simp [applyMemoryOverrides, h1, h2],
        fun hc => absurd hc h2⟩
    · exact ⟨by simp [applyMemoryOverrides, h1, h2],
        fun hc => absurd hc h1,
        fun _ => by simp [applyMemoryOverrides, h1, h2]⟩
    · rcases hdiff with h | h
      · exact absurd h h1
      · exact absurd h h2

/-- Witness for C8: concrete launches: overrides equal to the stored
values cause no write; a differing nonzero minimum causes one write that
stores the new value. -/
theorem C8_memory_override_write_policy_witness :
    applyMemoryOverrides ⟨1024, 2048⟩ 0 2048 = (⟨1024, 2048⟩, false) ∧
    (applyMemoryOverrides ⟨1024, 2048⟩ 512 0).2 = true ∧
    (applyMemoryOverrides ⟨1024, 2048⟩ 512 0).1.minMemory = 512 := by
  refine ⟨(C8_memory_override_write_policy ⟨1024, 2048⟩ 0 2048).1
    ⟨Or.inl rfl, Or.inr rfl⟩, ?_, ?_⟩
  · exact ((C8_memory_override_write_policy ⟨1024, 2048⟩ 512 0).2
      (Or.inl ⟨by decide, by decide⟩)).1
  · exact ((C8_memory_override_write_policy ⟨1024, 2048⟩ 512 0).2
      (Or.inl ⟨by decide, by decide⟩)).2.1 ⟨by decide, by decide⟩

end QMLauncher
